import Mathlib

/-!
Verification of the teleop recording pipeline in `scripts/teleop_record.py`.

The development shallowly embeds the recorder: the keymap and constants, the
key-normalization function `_key_to_name`, the listener callbacks `on_press` /
`on_release` acting on the shared held-key set, the multi-hot action encoding
performed each tick, and the capture loop of `main` as a trace-producing state
machine over per-tick environment inputs (grab results, held-key snapshots,
clock readings and the observed stop-flag values).

Machine-level details that no claim touches are abstracted as follows: pixel
data is an opaque `Nat` (the colour conversion and resize steps carry it
through unchanged), wall-clock readings are `Nat`s supplied by the
environment, and the float timestamps of the manifest are modelled as `Nat`s.
-/

namespace Teleop

/-! ## Definitions -/

/-! ### Recording settings (module-level constants of the script) -/

/-- Constant `REGION = {"left": 320, "top": 212, "width": 1280, "height": 720}`. -/
structure Region where
  left : Nat
  top : Nat
  width : Nat
  height : Nat
deriving DecidableEq, Repr

def REGION : Region := ⟨320, 212, 1280, 720⟩

def OUT_W : Nat := 320
def OUT_H : Nat := 180

def HZ : Nat := 10

/-- Constant `N_STEPS_MAX = 10_000`, the safety cap on the number of loop iterations. -/
def N_STEPS_MAX : Nat := 10000

def JPEG_QUALITY : Nat := 90

/-- Constant `KEYMAP`: ordered list of `(channel name, alias set)` pairs. -/
def KEYMAP : List (String × Finset String) :=
  [("up",       {"w", "up"}),
   ("down",     {"s", "down"}),
   ("left",     {"a", "left"}),
   ("right",    {"d", "right"}),
   ("use_tool", {"mouse_left", "c"}),
   ("interact", {"x", "e", "enter"}),
   ("menu",     {"esc", "tab"}),
   ("run",      {"left_shift", "right_shift"})]

/-! ### Key normalization (`_key_to_name`) -/

/-- A pynput key event payload: either a character key (`KeyCode`, whose
`.char` may be `None`) or a special key (`keyboard.Key`); special keys that
`_key_to_name` does not test for are collapsed into `other`. -/
inductive PKey where
  | keyCode (ch : Option Char)
  | up
  | down
  | left
  | right
  | esc
  | enter
  | tab
  | shift
  | shift_r
  | other (id : Nat)
deriving DecidableEq, Repr

/-- Function `_key_to_name`: character keys map to their lowercase character (the Python
`str.lower`, modelled by `Char.toLower`); the tested special keys map to fixed
names; everything else (a `KeyCode` whose `.char` is `None`, or an untested
special key) maps to `None`. -/
def key_to_name : PKey → Option String
  | .keyCode (some c) => some (String.singleton c.toLower)
  | .keyCode none => none
  | .up => some "up"
  | .down => some "down"
  | .left => some "left"
  | .right => some "right"
  | .esc => some "esc"
  | .enter => some "enter"
  | .tab => some "tab"
  | .shift => some "left_shift"
  | .shift_r => some "right_shift"
  | .other _ => none

/-! ### Listener callbacks and the shared held-key state -/

/-- The listener-side shared state: the lock-protected `held` set, the
`stop_flag` dictionary value, and whether the listener is still alive
(`on_press` returning `False` stops it). -/
structure ListenerState where
  held : Finset String
  stop : Bool
  listening : Bool
deriving DecidableEq

def initialListener : ListenerState := ⟨∅, false, true⟩

/-- Callback `on_press`: ignore unrecognized keys; on `"esc"` set the stop flag and
stop the listener (returning before any mutation of `held`); otherwise add
the canonical name to `held`. -/
def on_press (s : ListenerState) (k : PKey) : ListenerState :=
  match key_to_name k with
  | none => s
  | some name =>
    if name = "esc" then { s with stop := true, listening := false }
    else { s with held := insert name s.held }

/-- Callback `on_release`: ignore unrecognized keys; otherwise `held.discard(name)`. -/
def on_release (s : ListenerState) (k : PKey) : ListenerState :=
  match key_to_name k with
  | none => s
  | some name => { s with held := s.held.erase name }

inductive KeyEvent where
  | press (k : PKey)
  | release (k : PKey)
deriving DecidableEq, Repr

/-- One OS key event delivered to the listener; after the listener has stopped
no further callbacks run. -/
def applyEvent (s : ListenerState) (e : KeyEvent) : ListenerState :=
  if s.listening then
    match e with
    | .press k => on_press s k
    | .release k => on_release s k
  else s

/-- The listener state after a sequence of OS key events. -/
def listenerRun (evs : List KeyEvent) : ListenerState :=
  evs.foldl applyEvent initialListener

/-! ### Action encoding (lines 163-165 of the script) -/

/-- The multi-hot action vector: for each keymap entry in order, `1` if any
alias of the entry is in the held set, else `0`
(`action_vec.append(1 if any(a in held_now for a in aliases) else 0)`). -/
def encode (held : Finset String) (keymap : List (String × Finset String)) : List Nat :=
  keymap.map (fun e => if ∃ a ∈ e.2, a ∈ held then 1 else 0)

/-! ### Frame filenames (`f"{t:05d}.jpg"`) -/

/-- Format `f"{t:05d}"`: the decimal representation of `t`, left-padded with `'0'`
to width 5. -/
def pad5 (t : Nat) : String :=
  String.mk (List.replicate (5 - (toString t).length) '0' ++ (toString t).data)

def frameName (t : Nat) : String := pad5 t ++ ".jpg"

/-- The path recorded in a step and used for the frame write, relative to the
run directory (`frames_dir / f"{t:05d}.jpg"` on disk, `f"frames/{t:05d}.jpg"`
in the record: both name the same file `frames/<pad5 t>.jpg` under the run
directory). -/
def framePath (t : Nat) : String := "frames/" ++ frameName t

/-! ### Step records and the capture loop -/

/-- One entry of `meta["steps"]`. -/
structure StepRecord where
  t : Nat
  time_unix : Nat
  held_keys : List String
  action : List Nat
  frame : String
deriving DecidableEq, Repr

/-- The per-tick environment: the result of `sct.grab(REGION)` (`none` models
the grab raising / returning nothing usable), the held-key set the lock-guarded
snapshot observes, and the `time.time()` reading used in the record. -/
structure TickEnv where
  grab : Option Nat
  heldSnap : Finset String
  timeNow : Nat

/-- Steps `cv2.cvtColor` + `cv2.resize`: carried through as identity on the opaque
frame data, since no claim concerns pixel content. -/
def frameToObs (raw : Nat) : Nat := raw

/-- Dictionary `meta` as built at lines 134-141 and extended once per completed tick. -/
structure RolloutMetadata where
  region : Region
  out_size : List Nat
  hz : Nat
  keymap : List (String × List String)
  start_time_unix : Nat
  steps : List StepRecord
deriving DecidableEq, Repr

def initMeta (start : Nat) : RolloutMetadata :=
  { region := REGION
    out_size := [OUT_W, OUT_H]
    hz := HZ
    keymap := KEYMAP.map (fun p => (p.1, p.2.sort (· ≤ ·)))
    start_time_unix := start
    steps := [] }

/-- Observable actions of the capture loop and teardown of `main`. -/
inductive Event where
  | checkStop (t : Nat) (value : Bool)
  | grabFrame (t : Nat) (ok : Bool)
  | writeFrame (path : String) (data : Nat)
  | appendStep (r : StepRecord)
  | writeManifest (m : RolloutMetadata)
deriving DecidableEq

/-- The step record appended at tick `t` (lines 172-178): index, timestamp,
the sorted list of the keys of the snapshot, the action vector encoded from the
same snapshot, and the frame path. -/
def mkRecord (env : Nat → TickEnv) (t : Nat) : StepRecord :=
  { t := t
    time_unix := (env t).timeNow
    held_keys := (env t).heldSnap.sort (· ≤ ·)
    action := encode (env t).heldSnap KEYMAP
    frame := framePath t }

/-- The capture loop from tick `t` with `fuel` iterations of
`range(N_STEPS_MAX)` remaining, as the trace of events it performs.  Each
iteration first reads the stop flag; if clear, it grabs a frame — a failed
grab raises, which ends the loop immediately (there is no handler in `main`)
— then writes the frame file and appends the step record. -/
def loopFrom (env : Nat → TickEnv) (stops : Nat → Bool) : Nat → Nat → List Event
  | _, 0 => []
  | t, fuel + 1 =>
    if stops t then [.checkStop t true]
    else
      .checkStop t false ::
      match (env t).grab with
      | none => [.grabFrame t false]
      | some raw =>
        .grabFrame t true ::
        .writeFrame (framePath t) (frameToObs raw) ::
        .appendStep (mkRecord env t) ::
        loopFrom env stops (t + 1) fuel

/-- Whether the loop trace contains a failed grab (an uncaught exception). -/
def loopAborted (tr : List Event) : Bool :=
  tr.any fun e => match e with | .grabFrame _ ok => !ok | _ => false

/-- The records appended over a trace, in order. -/
def stepsOf (tr : List Event) : List StepRecord :=
  tr.filterMap fun e => match e with | .appendStep r => some r | _ => none

/-- The whole run: the capture loop followed — when no exception escaped the
loop — by the single `json.dump` of `meta` into `rollout.json` (lines
190-191).  When a grab raised, the exception propagates out of `main` and the
manifest write never runs. -/
def mainTrace (env : Nat → TickEnv) (stops : Nat → Bool) (start : Nat) : List Event :=
  let tr := loopFrom env stops 0 N_STEPS_MAX
  if loopAborted tr then tr
  else tr ++ [.writeManifest { initMeta start with steps := stepsOf tr }]

/-! ### Trace observations -/

def isCheckAt (t : Nat) (e : Event) : Bool :=
  match e with | .checkStop u _ => u = t | _ => false

def isCheck (e : Event) : Bool :=
  match e with | .checkStop _ _ => true | _ => false

def isManifest (e : Event) : Bool :=
  match e with | .writeManifest _ => true | _ => false

/-- The trace of one tick that runs its body to completion. -/
def tickBlock (env : Nat → TickEnv) (t : Nat) : List Event :=
  [.checkStop t false,
   .grabFrame t true,
   .writeFrame (framePath t) (frameToObs ((env t).grab.getD 0)),
   .appendStep (mkRecord env t)]

/-- The concatenated blocks of ticks `t0, t0 + 1, ..., t0 + n - 1`. -/
def blocksFrom (env : Nat → TickEnv) : Nat → Nat → List Event
  | _, 0 => []
  | t0, n + 1 => tickBlock env t0 ++ blocksFrom env (t0 + 1) n

/-! ### Decimal digit strings (for the zero-padded filenames) -/

/-- The decimal digit characters of `n`, most significant first (the clean
recursion that `Nat.toDigits 10` implements with fuel). -/
def natDigits (n : Nat) : List Char :=
  if h : n < 10 then [Nat.digitChar n]
  else natDigits (n / 10) ++ [Nat.digitChar (n % 10)]
termination_by n
decreasing_by exact Nat.div_lt_self (by omega) (by omega)

/-- Exactly `k` decimal digit characters of `n`, most significant first. -/
def padDigits : Nat → Nat → List Char
  | 0, _ => []
  | k + 1, n => padDigits k (n / 10) ++ [Nat.digitChar (n % 10)]

def digitVal (c : Char) : Nat := c.toNat - ('0').toNat

/-- The numeric reading of a digit string (most significant first). -/
def digitsVal (l : List Char) : Nat :=
  l.foldl (fun acc c => acc * 10 + digitVal c) 0

/-! ### JSON bracket structure of the manifest

`finalize` is `json.dump(meta, f, indent=2)`.  The serializer below produces
the structural character stream of that document: the key/value structure and
the order of all keys match the `meta` dictionary, and only inter-token
whitespace differs from `indent=2` output (whitespace carries no bracket
structure).  Strings are emitted unescaped, so the fidelity of the model is
stated under the `cleanS` hypothesis (no structural, quote, or escape
characters inside string data); every string the recorder itself produces is
clean.  A JSON parser accepts a document only if every `{`/`[` opened outside
a string literal is closed, so a prefix whose net bracket depth is positive
cannot be successfully parsed; `netOf` measures that depth. -/

def delta (c : Char) : Int :=
  if c = '{' ∨ c = '[' then 1 else if c = '}' ∨ c = ']' then -1 else 0

def netOf (l : List Char) : Int := (l.map delta).sum

/-- All intermediate bracket depths stay non-negative, starting from `d`. -/
def okFrom : Int → List Char → Bool
  | _, [] => true
  | d, c :: cs => decide (0 ≤ d + delta c) && okFrom (d + delta c) cs

/-- A balanced bracket body: net depth zero and no prefix dips negative. -/
def goodBody (l : List Char) : Prop := okFrom 0 l = true ∧ netOf l = 0

/-- A character that is legal inside a JSON string literal without escaping
and carries no bracket structure. -/
@[reducible] def jsafe (c : Char) : Prop := delta c = 0 ∧ c ≠ '"' ∧ c ≠ '\\'

@[reducible] def cleanS (s : String) : Prop := ∀ c ∈ s.data, jsafe c

def jstr (s : String) : List Char := '"' :: (s.data ++ ['"'])

def jnum (n : Nat) : List Char := (Nat.repr n).data

def sepList : List (List Char) → List Char
  | [] => []
  | [x] => x
  | x :: y :: rest => x ++ [',', ' '] ++ sepList (y :: rest)

def jarr (xs : List (List Char)) : List Char := '[' :: (sepList xs ++ [']'])

def jfield (k : String) (v : List Char) : List Char := jstr k ++ [':', ' '] ++ v

def jobj (kvs : List (String × List Char)) : List Char :=
  '{' :: (sepList (kvs.map fun kv => jfield kv.1 kv.2) ++ ['}'])

def serStep (r : StepRecord) : List Char :=
  jobj [("t", jnum r.t),
        ("time_unix", jnum r.time_unix),
        ("held_keys", jarr (r.held_keys.map jstr)),
        ("action", jarr (r.action.map jnum)),
        ("frame", jstr r.frame)]

def serKeymapEntry (e : String × List String) : List Char :=
  jobj [("name", jstr e.1), ("aliases", jarr (e.2.map jstr))]

def serRegion (rg : Region) : List Char :=
  jobj [("left", jnum rg.left), ("top", jnum rg.top),
        ("width", jnum rg.width), ("height", jnum rg.height)]

/-- The character stream of `json.dump(meta, f, indent=2)` modulo
whitespace. -/
def serMeta (m : RolloutMetadata) : List Char :=
  jobj [("region", serRegion m.region),
        ("out_size", jarr (m.out_size.map jnum)),
        ("hz", jnum m.hz),
        ("keymap", jarr (m.keymap.map serKeymapEntry)),
        ("start_time_unix", jnum m.start_time_unix),
        ("steps", jarr (m.steps.map serStep))]

/-- All strings of the manifest that came from outside the recorder are
clean. -/
def cleanMeta (m : RolloutMetadata) : Prop :=
  (∀ e ∈ m.keymap, cleanS e.1 ∧ ∀ a ∈ e.2, cleanS a) ∧
  (∀ r ∈ m.steps, (∀ x ∈ r.held_keys, cleanS x) ∧ cleanS r.frame)

/-! ## Theorems -/

/-! ### `stepsOf` computation rules -/

@[simp] theorem stepsOf_nil : stepsOf [] = [] := rfl

@[simp] theorem stepsOf_cons_check (t : Nat) (b : Bool) (tr : List Event) :
    stepsOf (Event.checkStop t b :: tr) = stepsOf tr := rfl

@[simp] theorem stepsOf_cons_grab (t : Nat) (b : Bool) (tr : List Event) :
    stepsOf (Event.grabFrame t b :: tr) = stepsOf tr := rfl

@[simp] theorem stepsOf_cons_write (p : String) (d : Nat) (tr : List Event) :
    stepsOf (Event.writeFrame p d :: tr) = stepsOf tr := rfl

@[simp] theorem stepsOf_cons_append (r : StepRecord) (tr : List Event) :
    stepsOf (Event.appendStep r :: tr) = r :: stepsOf tr := rfl

@[simp] theorem stepsOf_cons_manifest (m : RolloutMetadata) (tr : List Event) :
    stepsOf (Event.writeManifest m :: tr) = stepsOf tr := rfl

theorem stepsOf_append (a b : List Event) : stepsOf (a ++ b) = stepsOf a ++ stepsOf b :=
  List.filterMap_append _ _ _

/-! ### Encoder lemmas -/

theorem encode_length (held : Finset String) (keymap : List (String × Finset String)) :
    (encode held keymap).length = keymap.length :=
  List.length_map _ _

theorem encode_get (held : Finset String) (keymap : List (String × Finset String))
    (i : Nat) (hK : i < keymap.length) (hE : i < (encode held keymap).length) :
    (encode held keymap).get ⟨i, hE⟩ =
      if ∃ a ∈ (keymap.get ⟨i, hK⟩).2, a ∈ held then 1 else 0 := by
  simp [encode]

/-! ### Loop structure lemmas -/

theorem loopFrom_unroll (env : Nat → TickEnv) (stops : Nat → Bool) :
    ∀ n t0 fuel, n ≤ fuel →
      (∀ i, t0 ≤ i → i < t0 + n → stops i = false ∧ ((env i).grab).isSome = true) →
      loopFrom env stops t0 fuel =
        blocksFrom env t0 n ++ loopFrom env stops (t0 + n) (fuel - n) := by
  intro n
  induction n with
  | zero => intro t0 fuel _ _; simp [blocksFrom]
  | succ m ih =>
    intro t0 fuel hle hok
    obtain ⟨f, rfl⟩ : ∃ f, fuel = f + 1 :=
      ⟨fuel - 1, by omega⟩
    have h0 : stops t0 = false ∧ ((env t0).grab).isSome = true :=
      hok t0 le_rfl (by omega)
    obtain ⟨raw, hraw⟩ : ∃ raw, (env t0).grab = some raw :=
      Option.isSome_iff_exists.mp h0.2
    have : loopFrom env stops t0 (f + 1) =
        tickBlock env t0 ++ loopFrom env stops (t0 + 1) f := by
      simp [loopFrom, h0.1, hraw, tickBlock]
    rw [this, ih (t0 + 1) f (by omega) (fun i h1 h2 => hok i (by omega) (by omega)),
      blocksFrom, List.append_assoc]
    have e1 : t0 + 1 + m = t0 + (m + 1) := by omega
    have e2 : f - m = f + 1 - (m + 1) := by omega
    rw [e1, e2]

theorem blocksFrom_snoc (env : Nat → TickEnv) :
    ∀ n t0, blocksFrom env t0 (n + 1) = blocksFrom env t0 n ++ tickBlock env (t0 + n) := by
  intro n
  induction n with
  | zero => intro t0; simp [blocksFrom]
  | succ m ih =>
    intro t0
    rw [blocksFrom, ih (t0 + 1), blocksFrom, List.append_assoc]
    have e1 : t0 + 1 + m = t0 + (m + 1) := by omega
    rw [e1]

theorem checkAt_loopFrom_ge (env : Nat → TickEnv) (stops : Nat → Bool) :
    ∀ fuel t0 t b, Event.checkStop t b ∈ loopFrom env stops t0 fuel → t0 ≤ t := by
  intro fuel
  induction fuel with
  | zero => intro t0 t b h; simp [loopFrom] at h
  | succ f ih =>
    intro t0 t b h
    rw [loopFrom] at h
    by_cases hs : stops t0
    · simp [hs] at h
      omega
    · rw [if_neg hs] at h
      cases hg : (env t0).grab with
      | none =>
        rw [hg] at h
        simp at h
        omega
      | some raw =>
        rw [hg] at h
        simp at h
        rcases h with ⟨h1, h2⟩ | h
        · omega
        · have := ih (t0 + 1) t b h
          omega

theorem countP_checkAt_blocksFrom (env : Nat → TickEnv) (t : Nat) :
    ∀ n t0, (blocksFrom env t0 n).countP (isCheckAt t) =
      if t0 ≤ t ∧ t < t0 + n then 1 else 0 := by
  intro n
  induction n with
  | zero =>
    intro t0
    have hno : ¬ (t0 ≤ t ∧ t < t0) := by omega
    simp [blocksFrom, hno]
  | succ m ih =>
    intro t0
    rw [blocksFrom, List.countP_append, ih (t0 + 1)]
    have hblock : (tickBlock env t0).countP (isCheckAt t) = if t0 = t then 1 else 0 := by
      by_cases h : t0 = t <;> simp [tickBlock, List.countP_cons, isCheckAt, h]
    rw [hblock]
    by_cases h1 : t0 = t <;> by_cases h2 : t0 + 1 ≤ t ∧ t < t0 + 1 + m <;>
      by_cases h3 : t0 ≤ t ∧ t < t0 + (m + 1) <;>
      simp [h1, h2, h3] <;>
      omega

theorem stepsOf_blocksFrom (env : Nat → TickEnv) :
    ∀ n t0, stepsOf (blocksFrom env t0 n) = (List.range' t0 n).map (mkRecord env) := by
  intro n
  induction n with
  | zero => intro t0; simp [blocksFrom, stepsOf]
  | succ m ih =>
    intro t0
    rw [blocksFrom, stepsOf_append, ih (t0 + 1), List.range'_succ]
    simp [tickBlock, stepsOf]

theorem manifest_not_in_loopFrom (env : Nat → TickEnv) (stops : Nat → Bool) :
    ∀ fuel t0 m, Event.writeManifest m ∉ loopFrom env stops t0 fuel := by
  intro fuel
  induction fuel with
  | zero => intro t0 m h; simp [loopFrom] at h
  | succ f ih =>
    intro t0 m h
    rw [loopFrom] at h
    by_cases hs : stops t0
    · simp [hs] at h
    · rw [if_neg hs] at h
      cases hg : (env t0).grab with
      | none =>
        rw [hg] at h
        simp at h
      | some raw =>
        rw [hg] at h
        simp at h
        exact ih (t0 + 1) m h

theorem loopAborted_of_allOk (env : Nat → TickEnv) (stops : Nat → Bool)
    (hok : ∀ i, ((env i).grab).isSome = true) :
    ∀ fuel t0, loopAborted (loopFrom env stops t0 fuel) = false := by
  intro fuel
  induction fuel with
  | zero => intro t0; simp [loopFrom, loopAborted]
  | succ f ih =>
    intro t0
    rw [loopFrom]
    obtain ⟨raw, hraw⟩ : ∃ raw, (env t0).grab = some raw :=
      Option.isSome_iff_exists.mp (hok t0)
    by_cases hs : stops t0 <;>
      simp [hs, hraw, loopAborted, List.any_cons] at ih ⊢
    exact ih (t0 + 1)

/-- Every record in the loop trace is the record of some tick `t ≥ t0` whose
grab succeeded, and the trace also contains the frame write of that tick. -/
theorem mem_stepsOf_loopFrom (env : Nat → TickEnv) (stops : Nat → Bool) :
    ∀ fuel t0 r, r ∈ stepsOf (loopFrom env stops t0 fuel) →
      ∃ t raw, t0 ≤ t ∧ (env t).grab = some raw ∧ r = mkRecord env t ∧
        Event.writeFrame (framePath t) (frameToObs raw) ∈ loopFrom env stops t0 fuel := by
  intro fuel
  induction fuel with
  | zero => intro t0 r h; simp [loopFrom, stepsOf] at h
  | succ f ih =>
    intro t0 r h
    rw [loopFrom] at h
    by_cases hs : stops t0
    · simp [hs] at h
    · rw [if_neg hs] at h
      cases hg : (env t0).grab with
      | none =>
        rw [hg] at h
        simp at h
      | some raw =>
        rw [hg] at h
        simp only [stepsOf_cons_check, stepsOf_cons_grab, stepsOf_cons_write,
          stepsOf_cons_append, List.mem_cons] at h
        rcases h with h | h
        · refine ⟨t0, raw, le_rfl, hg, h, ?_⟩
          rw [loopFrom]
          simp [hs, hg]
        · obtain ⟨t, raw2, ht0, hg2, hr, hmem⟩ := ih (t0 + 1) r h
          refine ⟨t, raw2, by omega, hg2, hr, ?_⟩
          rw [loopFrom]
          simp [hs, hg]
          tauto

theorem stepsOf_mainTrace (env : Nat → TickEnv) (stops : Nat → Bool) (start : Nat) :
    stepsOf (mainTrace env stops start) = stepsOf (loopFrom env stops 0 N_STEPS_MAX) := by
  rw [mainTrace]
  by_cases h : loopAborted (loopFrom env stops 0 N_STEPS_MAX) <;>
    simp [h, stepsOf_append]

theorem mem_loopFrom_mainTrace (env : Nat → TickEnv) (stops : Nat → Bool) (start : Nat)
    (e : Event) (he : e ∈ loopFrom env stops 0 N_STEPS_MAX) :
    e ∈ mainTrace env stops start := by
  rw [mainTrace]
  by_cases h : loopAborted (loopFrom env stops 0 N_STEPS_MAX) <;> simp [h, he]

/-! ### Claim C1 — action-vector correctness -/

/-- C1 -- Action encoding correctness: for every held-key snapshot `H` and
every keymap `K`, the encoded vector has length `K.length`, and position `i`
is `1` iff `H ∩ K[i].aliases` is non-empty (and `0` otherwise, the entries
being drawn from `{0, 1}`). -/
theorem action_encoding_correct (H : Finset String) (K : List (String × Finset String))
    (i : Nat) (hK : i < K.length) (hE : i < (encode H K).length) :
    (encode H K).length = K.length ∧
    ((encode H K).get ⟨i, hE⟩ = 1 ↔ (H ∩ (K.get ⟨i, hK⟩).2).Nonempty) ∧
    ((encode H K).get ⟨i, hE⟩ = 0 ↔ ¬ (H ∩ (K.get ⟨i, hK⟩).2).Nonempty) := by
  refine ⟨encode_length H K, ?_, ?_⟩ <;> rw [encode_get H K i hK hE] <;>
    by_cases h : ∃ a ∈ (K.get ⟨i, hK⟩).2, a ∈ H <;>
    simp [h, Finset.Nonempty] <;> tauto

/-- Witness for C1: with `H = {"w"}` and the `KEYMAP` of the script, channel 0
(`"up"`, aliases `{"w","up"}`) is on. -/
theorem action_encoding_correct_witness :
    (0 < KEYMAP.length ∧ 0 < (encode {"w"} KEYMAP).length) ∧
    ((encode {"w"} KEYMAP).length = KEYMAP.length ∧
     ((encode {"w"} KEYMAP).get ⟨0, by decide⟩ = 1 ↔
        (({"w"} : Finset String) ∩ (KEYMAP.get ⟨0, by decide⟩).2).Nonempty) ∧
     ((encode {"w"} KEYMAP).get ⟨0, by decide⟩ = 0 ↔
        ¬ (({"w"} : Finset String) ∩ (KEYMAP.get ⟨0, by decide⟩).2).Nonempty)) :=
  ⟨⟨by decide, by decide⟩,
   action_encoding_correct {"w"} KEYMAP 0 (by decide) (by decide)⟩

/-! ### Claim C7 — key normalization -/

/-- C7 -- Key normalization: alphanumeric character keys map to their
lowercase character; the directional, modifier and control keys map to the
fixed canonical names; and an unrecognized key leaves the listener state
(in particular `held`) unchanged under both callbacks, with no failure. -/
theorem key_normalization (c : Char) (hc : c.isAlphanum)
    (k : PKey) (hk : key_to_name k = none) (s : ListenerState) :
    key_to_name (.keyCode (some c)) = some (String.singleton c.toLower) ∧
    key_to_name .up = some "up" ∧
    key_to_name .down = some "down" ∧
    key_to_name .left = some "left" ∧
    key_to_name .right = some "right" ∧
    key_to_name .esc = some "esc" ∧
    key_to_name .enter = some "enter" ∧
    key_to_name .tab = some "tab" ∧
    key_to_name .shift = some "left_shift" ∧
    key_to_name .shift_r = some "right_shift" ∧
    on_press s k = s ∧ on_release s k = s := by
  refine ⟨rfl, rfl, rfl, rfl, rfl, rfl, rfl, rfl, rfl, rfl, ?_, ?_⟩ <;>
    simp [on_press, on_release, hk]

/-- Witness for C7 at `c = 'A'`, `k = .other 0`. -/
theorem key_normalization_witness :
    (('A').isAlphanum = true ∧ key_to_name (.other 0) = none) ∧
    (key_to_name (.keyCode (some 'A')) = some (String.singleton ('A').toLower) ∧
     key_to_name .up = some "up" ∧
     key_to_name .down = some "down" ∧
     key_to_name .left = some "left" ∧
     key_to_name .right = some "right" ∧
     key_to_name .esc = some "esc" ∧
     key_to_name .enter = some "enter" ∧
     key_to_name .tab = some "tab" ∧
     key_to_name .shift = some "left_shift" ∧
     key_to_name .shift_r = some "right_shift" ∧
     on_press initialListener (.other 0) = initialListener ∧
     on_release initialListener (.other 0) = initialListener) :=
  ⟨⟨by decide, by decide⟩,
   key_normalization 'A' (by decide) (.other 0) (by decide) initialListener⟩

/-! ### Decimal digit lemmas -/

theorem toDigitsCore_eq_natDigits :
    ∀ n fuel acc, n < fuel → Nat.toDigitsCore 10 fuel n acc = natDigits n ++ acc := by
  intro n
  induction n using Nat.strong_induction_on with
  | _ n ih =>
    intro fuel acc hfuel
    obtain ⟨f, rfl⟩ : ∃ f, fuel = f + 1 := ⟨fuel - 1, by omega⟩
    rw [Nat.toDigitsCore]
    by_cases h : n / 10 = 0
    · have h10 : n < 10 := by omega
      rw [natDigits]
      simp [h, h10, Nat.mod_eq_of_lt h10]
    · have h10 : ¬ n < 10 := by omega
      rw [if_neg h, ih (n / 10) (Nat.div_lt_self (by omega) (by omega)) f _ (by omega)]
      conv_rhs => rw [natDigits]
      simp [h10]

theorem toString_nat_data (n : Nat) : (toString n).data = natDigits n := by
  show (Nat.repr n).data = natDigits n
  rw [Nat.repr, Nat.toDigits, toDigitsCore_eq_natDigits n (n + 1) [] (by omega)]
  simp [List.asString]

theorem natDigits_ne_nil (n : Nat) : natDigits n ≠ [] := by
  rw [natDigits]
  by_cases h : n < 10 <;> simp [h]

theorem natDigits_length_le : ∀ k n, 0 < k → n < 10 ^ k → (natDigits n).length ≤ k := by
  intro k
  induction k with
  | zero => intro n h; omega
  | succ m ih =>
    intro n _ hn
    rw [natDigits]
    by_cases h : n < 10
    · simp [h]
    · rw [dif_neg h]
      have hm : 0 < m := by
        by_contra hm0
        have : m = 0 := by omega
        subst this
        simp at hn
        omega
      have : n / 10 < 10 ^ m := by
        have h1 : (10 : Nat) ^ (m + 1) = 10 ^ m * 10 := by ring
        rw [h1] at hn
        exact Nat.div_lt_of_lt_mul (by omega)
      have := ih (n / 10) hm this
      simp [List.length_append]
      omega

theorem padDigits_length : ∀ k n, (padDigits k n).length = k := by
  intro k
  induction k with
  | zero => intro n; rfl
  | succ m ih => intro n; rw [padDigits]; simp [ih]

theorem padDigits_zero : ∀ k, padDigits k 0 = List.replicate k '0' := by
  intro k
  induction k with
  | zero => rfl
  | succ m ih =>
    rw [padDigits]
    simp [ih]
    rw [List.replicate_succ' m '0']
    rfl

theorem padDigits_eq_pad (k n : Nat) (h : (natDigits n).length ≤ k) :
    padDigits k n = List.replicate (k - (natDigits n).length) '0' ++ natDigits n := by
  induction k generalizing n with
  | zero =>
    have := natDigits_ne_nil n
    have : (natDigits n).length ≠ 0 := by simpa [List.length_eq_zero]
    omega
  | succ m ih =>
    by_cases h10 : n < 10
    · have hd : natDigits n = [Nat.digitChar n] := by
        rw [natDigits]; simp [h10]
      rw [padDigits, Nat.div_eq_of_lt h10, Nat.mod_eq_of_lt h10, padDigits_zero, hd]
      simp
    · have hd : natDigits n = natDigits (n / 10) ++ [Nat.digitChar (n % 10)] := by
        conv_lhs => rw [natDigits]
        simp [h10]
      have hlen : (natDigits (n / 10)).length ≤ m := by
        rw [hd] at h
        simp [List.length_append] at h
        omega
      rw [padDigits, ih (n / 10) hlen, hd, List.append_assoc]
      have : m + 1 - (natDigits (n / 10) ++ [Nat.digitChar (n % 10)]).length =
          m - (natDigits (n / 10)).length := by
        simp [List.length_append]
      rw [this]

theorem pad5_data (t : Nat) :
    (pad5 t).data = List.replicate (5 - (natDigits t).length) '0' ++ natDigits t := by
  have hlen : (toString t).length = (natDigits t).length := by
    show (toString t).data.length = _
    rw [toString_nat_data]
  rw [pad5]
  show List.replicate (5 - (toString t).length) '0' ++ (toString t).data = _
  rw [hlen, toString_nat_data]

theorem pad5_eq_padDigits (t : Nat) (h : t < 100000) : (pad5 t).data = padDigits 5 t := by
  have h5 : (natDigits t).length ≤ 5 := natDigits_length_le 5 t (by omega) (by norm_num; omega)
  rw [pad5_data, padDigits_eq_pad 5 t h5]

theorem digitVal_digitChar : ∀ d, d < 10 → digitVal (Nat.digitChar d) = d := by decide

theorem digitChar_lt_digitChar :
    ∀ a, a < 10 → ∀ b, b < 10 → a < b → Nat.digitChar a < Nat.digitChar b := by decide

theorem digitsVal_append_one (l : List Char) (c : Char) :
    digitsVal (l ++ [c]) = digitsVal l * 10 + digitVal c := by
  simp [digitsVal, List.foldl_append]

theorem digitsVal_padDigits : ∀ k n, digitsVal (padDigits k n) = n % 10 ^ k := by
  intro k
  induction k with
  | zero => intro n; simp [padDigits, digitsVal, Nat.mod_one]
  | succ m ih =>
    intro n
    rw [padDigits, digitsVal_append_one, ih (n / 10),
      digitVal_digitChar (n % 10) (Nat.mod_lt n (by omega))]
    have h1 : (10 : Nat) ^ (m + 1) = 10 * 10 ^ m := by ring
    rw [h1, Nat.mod_mul]
    ring

theorem digitsVal_pad5 (t : Nat) (h : t < 100000) : digitsVal (pad5 t).data = t := by
  rw [pad5_eq_padDigits t h, digitsVal_padDigits]
  have : (10 : Nat) ^ 5 = 100000 := by norm_num
  rw [this]
  exact Nat.mod_eq_of_lt h

theorem lex_append_of_length_eq {α : Type} {R : α → α → Prop} :
    ∀ {a b : List α}, a.length = b.length → List.Lex R a b →
      ∀ x y, List.Lex R (a ++ x) (b ++ y) := by
  intro a b hlen h
  induction h with
  | nil => simp at hlen
  | rel h => intro x y; exact List.Lex.rel h
  | @cons c l1 l2 h ih =>
    intro x y
    exact List.Lex.cons (ih (by simpa using hlen) x y)

theorem padDigits_lex :
    ∀ k n m, n < m → m < 10 ^ k →
      List.Lex (· < ·) (padDigits k n) (padDigits k m) := by
  intro k
  induction k with
  | zero => intro n m hnm hm; simp at hm; omega
  | succ p ih =>
    intro n m hnm hm
    rw [padDigits, padDigits]
    rcases Nat.lt_trichotomy (n / 10) (m / 10) with hlt | heq | hgt
    · have hmp : m / 10 < 10 ^ p := by
        have h1 : (10 : Nat) ^ (p + 1) = 10 ^ p * 10 := by ring
        rw [h1] at hm
        exact Nat.div_lt_of_lt_mul (by omega)
      exact lex_append_of_length_eq
        (by rw [padDigits_length, padDigits_length]) (ih (n / 10) (m / 10) hlt hmp) _ _
    · rw [heq]
      apply List.Lex.append_left
      have hmod : n % 10 < m % 10 := by omega
      exact List.Lex.rel
        (digitChar_lt_digitChar (n % 10) (Nat.mod_lt n (by omega))
          (m % 10) (Nat.mod_lt m (by omega)) hmod)
    · have : n / 10 ≤ m / 10 := Nat.div_le_div_right (le_of_lt hnm)
      omega

theorem list_lt_of_lex {l l2 : List Char} (h : List.Lex (· < ·) l l2) : l < l2 := h

theorem lex_of_list_lt {l l2 : List Char} (h : l < l2) : List.Lex (· < ·) l l2 := h

theorem frameName_lt (s t : Nat) (hst : s < t) (ht : t < 100000) :
    frameName s < frameName t := by
  rw [String.lt_iff_toList_lt]
  have hdata : ∀ u, (frameName u).toList = (pad5 u).data ++ (".jpg").data := by
    intro u
    show (pad5 u ++ ".jpg").data = _
    rw [String.data_append]
  rw [hdata s, hdata t]
  apply list_lt_of_lex
  rw [pad5_eq_padDigits s (by omega), pad5_eq_padDigits t ht]
  exact lex_append_of_length_eq (by rw [padDigits_length, padDigits_length])
    (padDigits_lex 5 s t hst (by norm_num; omega)) _ _

theorem framePath_lt (s t : Nat) (hst : s < t) (ht : t < 100000) :
    framePath s < framePath t := by
  rw [String.lt_iff_toList_lt]
  have hdata : ∀ u, (framePath u).toList = ("frames/").data ++ (frameName u).data := by
    intro u
    show ("frames/" ++ frameName u).data = _
    rw [String.data_append]
  rw [hdata s, hdata t]
  apply list_lt_of_lex
  apply List.Lex.append_left
  have := frameName_lt s t hst ht
  rw [String.lt_iff_toList_lt] at this
  exact lex_of_list_lt this

theorem framePath_inj (s t : Nat) (hs : s < 100000) (ht : t < 100000)
    (h : framePath s = framePath t) : s = t := by
  rcases Nat.lt_trichotomy s t with hlt | heq | hgt
  · exact absurd h (ne_of_lt (framePath_lt s t hlt ht))
  · exact heq
  · exact absurd h.symm (ne_of_lt (framePath_lt t s hgt hs))

/-! ### Claim C4 — gapless monotone step indices -/

theorem stepsOf_loopFrom_t (env : Nat → TickEnv) (stops : Nat → Bool) :
    ∀ fuel t0, ∃ k,
      (stepsOf (loopFrom env stops t0 fuel)).map StepRecord.t = List.range' t0 k := by
  intro fuel
  induction fuel with
  | zero => intro t0; exact ⟨0, by simp [loopFrom]⟩
  | succ f ih =>
    intro t0
    rw [loopFrom]
    by_cases hs : stops t0
    · exact ⟨0, by simp [hs]⟩
    · rw [if_neg hs]
      cases hg : (env t0).grab with
      | none => exact ⟨0, by simp⟩
      | some raw =>
        obtain ⟨k, hk⟩ := ih (t0 + 1)
        exact ⟨k + 1, by simp [mkRecord, hk, List.range'_succ]⟩

/-- C4 -- The `t` fields of the records actually appended form exactly
`0, 1, ..., len - 1`: strictly increasing, starting at 0, with no gaps.
(A capture failure appends nothing for its tick and aborts the loop, so
failed ticks are simply absent from the append sequence.) -/
theorem step_indices_gapless (env : Nat → TickEnv) (stops : Nat → Bool) (start : Nat) :
    (stepsOf (mainTrace env stops start)).map StepRecord.t =
      List.range (stepsOf (mainTrace env stops start)).length := by
  rw [stepsOf_mainTrace]
  obtain ⟨k, hk⟩ := stepsOf_loopFrom_t env stops N_STEPS_MAX 0
  have hlen : (stepsOf (loopFrom env stops 0 N_STEPS_MAX)).length = k := by
    have := congrArg List.length hk
    simpa using this
  rw [hk, hlen, List.range_eq_range']

/-! ### Claim C6 — termination and the step cap -/

theorem loopFrom_length_bounds (env : Nat → TickEnv) (stops : Nat → Bool) :
    ∀ fuel t0,
      (stepsOf (loopFrom env stops t0 fuel)).length ≤ fuel ∧
      (loopFrom env stops t0 fuel).countP isCheck ≤ fuel := by
  intro fuel
  induction fuel with
  | zero => intro t0; simp [loopFrom]
  | succ f ih =>
    intro t0
    rw [loopFrom]
    by_cases hs : stops t0
    · simp [hs, List.countP_cons, isCheck]
    · rw [if_neg hs]
      cases hg : (env t0).grab with
      | none => simp [List.countP_cons, isCheck]
      | some raw =>
        have := ih (t0 + 1)
        constructor
        · simp only [stepsOf_cons_check, stepsOf_cons_grab, stepsOf_cons_write,
            stepsOf_cons_append, List.length_cons]
          omega
        · simp only [List.countP_cons, isCheck]
          simp
          omega

/-- C6 -- The capture loop runs at most `N_STEPS_MAX` iterations (so at most
`N_STEPS_MAX` records), and when the first true stop-flag observation is at
tick `k` (all earlier ticks completing normally) the loop exits there:
exactly `min k N_STEPS_MAX` records are appended. -/
theorem loop_terminates_bounded (env : Nat → TickEnv) (stops : Nat → Bool) (start : Nat)
    (k : Nat) (hk : stops k = true)
    (hbefore : ∀ i, i < k → stops i = false ∧ ((env i).grab).isSome = true) :
    (stepsOf (mainTrace env stops start)).length ≤ N_STEPS_MAX ∧
    (mainTrace env stops start).countP isCheck ≤ N_STEPS_MAX ∧
    (stepsOf (mainTrace env stops start)).length = min k N_STEPS_MAX := by
  have hbound := loopFrom_length_bounds env stops N_STEPS_MAX 0
  have hcount : (mainTrace env stops start).countP isCheck =
      (loopFrom env stops 0 N_STEPS_MAX).countP isCheck := by
    rw [mainTrace]
    by_cases h : loopAborted (loopFrom env stops 0 N_STEPS_MAX) <;>
      simp [h, List.countP_append, List.countP_cons, isCheck]
  refine ⟨by rw [stepsOf_mainTrace]; exact hbound.1, by rw [hcount]; exact hbound.2, ?_⟩
  rw [stepsOf_mainTrace]
  by_cases hkN : k < N_STEPS_MAX
  · have hunroll := loopFrom_unroll env stops k 0 N_STEPS_MAX (by omega)
      (fun i h1 h2 => hbefore i (by omega))
    have htail : loopFrom env stops (0 + k) (N_STEPS_MAX - k) = [Event.checkStop k true] := by
      obtain ⟨f, hf⟩ : ∃ f, N_STEPS_MAX - k = f + 1 := ⟨N_STEPS_MAX - k - 1, by omega⟩
      rw [hf, loopFrom]
      simp [hk]
    rw [hunroll, htail, stepsOf_append, stepsOf_blocksFrom]
    simp
    omega
  · have hunroll := loopFrom_unroll env stops N_STEPS_MAX 0 N_STEPS_MAX (by omega)
      (fun i h1 h2 => hbefore i (by omega))
    have htail : loopFrom env stops (0 + N_STEPS_MAX) (N_STEPS_MAX - N_STEPS_MAX) = [] := by
      simp [loopFrom]
    rw [hunroll, htail, stepsOf_append, stepsOf_blocksFrom]
    simp
    omega

/-- Witness for C6 with the stop flag first true at tick 3. -/
theorem loop_terminates_bounded_witness :
    ((fun u => decide (3 ≤ u)) 3 = true ∧
     (∀ i, i < 3 → (fun u => decide (3 ≤ u)) i = false ∧
        (((fun _ => (⟨some 7, {"w"}, 5⟩ : TickEnv)) i).grab).isSome = true)) ∧
    ((stepsOf (mainTrace (fun _ => ⟨some 7, {"w"}, 5⟩) (fun u => decide (3 ≤ u)) 0)).length ≤
        N_STEPS_MAX ∧
     (mainTrace (fun _ => ⟨some 7, {"w"}, 5⟩) (fun u => decide (3 ≤ u)) 0).countP isCheck ≤
        N_STEPS_MAX ∧
     (stepsOf (mainTrace (fun _ => ⟨some 7, {"w"}, 5⟩) (fun u => decide (3 ≤ u)) 0)).length =
        min 3 N_STEPS_MAX) :=
  ⟨⟨by decide, by decide⟩,
   loop_terminates_bounded (fun _ => ⟨some 7, {"w"}, 5⟩) (fun u => decide (3 ≤ u)) 0 3
     (by decide) (by decide)⟩

/-! ### Claim C5 — stop flag checked once per tick, ticks run to completion -/

/-- C5 -- In any run, every tick reached with the flag clear and a good grab
produces the contiguous block `checkStop, grabFrame, writeFrame, appendStep`:
the stop flag is read exactly once for that tick (`countP` is 1 over the whole
run trace), the read comes before any capture work of the tick (it is the
first event of the block), and the tick body runs to completion — its frame
write and record append are in the trace no matter what the stop flag does at
later observation points, so a flag set mid-tick is only honored at the top of
the next iteration. -/
theorem stop_checked_once_per_tick (env : Nat → TickEnv) (stops : Nat → Bool) (start : Nat)
    (t : Nat) (ht : t < N_STEPS_MAX)
    (hok : ∀ i, i ≤ t → stops i = false ∧ ((env i).grab).isSome = true) :
    (mainTrace env stops start).countP (isCheckAt t) = 1 ∧
    (∃ post, mainTrace env stops start = blocksFrom env 0 t ++ tickBlock env t ++ post) ∧
    tickBlock env t =
      [Event.checkStop t false, Event.grabFrame t true,
       Event.writeFrame (framePath t) (frameToObs ((env t).grab.getD 0)),
       Event.appendStep (mkRecord env t)] ∧
    Event.appendStep (mkRecord env t) ∈ mainTrace env stops start ∧
    Event.writeFrame (framePath t) (frameToObs ((env t).grab.getD 0)) ∈
      mainTrace env stops start := by
  have hunroll := loopFrom_unroll env stops (t + 1) 0 N_STEPS_MAX (by omega)
    (fun i h1 h2 => hok i (by omega))
  have hsplit : blocksFrom env 0 (t + 1) = blocksFrom env 0 t ++ tickBlock env t := by
    have := blocksFrom_snoc env t 0
    simpa using this
  have hloop : loopFrom env stops 0 N_STEPS_MAX =
      blocksFrom env 0 t ++ tickBlock env t ++
        loopFrom env stops (0 + (t + 1)) (N_STEPS_MAX - (t + 1)) := by
    rw [hunroll, hsplit]
  have hcount : (loopFrom env stops 0 N_STEPS_MAX).countP (isCheckAt t) = 1 := by
    rw [hunroll, List.countP_append, countP_checkAt_blocksFrom]
    have hz : (loopFrom env stops (0 + (t + 1)) (N_STEPS_MAX - (t + 1))).countP
        (isCheckAt t) = 0 := by
      rw [List.countP_eq_zero]
      intro e he
      cases e with
      | checkStop u b =>
        have := checkAt_loopFrom_ge env stops (N_STEPS_MAX - (t + 1)) (0 + (t + 1)) u b he
        simp [isCheckAt]
        omega
      | grabFrame u b => simp [isCheckAt]
      | writeFrame p d => simp [isCheckAt]
      | appendStep r => simp [isCheckAt]
      | writeManifest m => simp [isCheckAt]
    rw [hz]
    have : (0 ≤ t ∧ t < 0 + (t + 1)) := by omega
    simp [this]
  have hmanifest : ∀ m : RolloutMetadata, isCheckAt t (Event.writeManifest m) = false := by
    intro m; rfl
  have hmemA : Event.appendStep (mkRecord env t) ∈ loopFrom env stops 0 N_STEPS_MAX := by
    rw [hloop]
    simp [tickBlock]
  have hmemW : Event.writeFrame (framePath t) (frameToObs ((env t).grab.getD 0)) ∈
      loopFrom env stops 0 N_STEPS_MAX := by
    rw [hloop]
    simp [tickBlock]
  refine ⟨?_, ?_, rfl, mem_loopFrom_mainTrace env stops start _ hmemA,
    mem_loopFrom_mainTrace env stops start _ hmemW⟩
  · rw [mainTrace]
    by_cases h : loopAborted (loopFrom env stops 0 N_STEPS_MAX) <;>
      simp [h, List.countP_append, List.countP_cons, isCheckAt, hcount]
  · rw [mainTrace]
    by_cases h : loopAborted (loopFrom env stops 0 N_STEPS_MAX)
    · simp only [h, if_true]
      exact ⟨loopFrom env stops (0 + (t + 1)) (N_STEPS_MAX - (t + 1)), by
        rw [hloop, List.append_assoc]⟩
    · simp only [h, if_false]
      refine ⟨loopFrom env stops (0 + (t + 1)) (N_STEPS_MAX - (t + 1)) ++
        [Event.writeManifest { initMeta start with
          steps := stepsOf (loopFrom env stops 0 N_STEPS_MAX) }], ?_⟩
      rw [hloop]
      simp [List.append_assoc]

/-- Witness for C5 at tick 0 with the stop flag first true at tick 2. -/
theorem stop_checked_once_per_tick_witness :
    ((0 : Nat) < N_STEPS_MAX ∧
     (∀ i, i ≤ 0 → (fun u => decide (2 ≤ u)) i = false ∧
        (((fun _ => (⟨some 9, {"a"}, 4⟩ : TickEnv)) i).grab).isSome = true)) ∧
    ((mainTrace (fun _ => ⟨some 9, {"a"}, 4⟩) (fun u => decide (2 ≤ u)) 0).countP
        (isCheckAt 0) = 1 ∧
     (∃ post, mainTrace (fun _ => ⟨some 9, {"a"}, 4⟩) (fun u => decide (2 ≤ u)) 0 =
        blocksFrom (fun _ => ⟨some 9, {"a"}, 4⟩) 0 0 ++
          tickBlock (fun _ => ⟨some 9, {"a"}, 4⟩) 0 ++ post) ∧
     tickBlock (fun _ => ⟨some 9, {"a"}, 4⟩) 0 =
       [Event.checkStop 0 false, Event.grabFrame 0 true,
        Event.writeFrame (framePath 0)
          (frameToObs (((fun _ => (⟨some 9, {"a"}, 4⟩ : TickEnv)) 0).grab.getD 0)),
        Event.appendStep (mkRecord (fun _ => ⟨some 9, {"a"}, 4⟩) 0)] ∧
     Event.appendStep (mkRecord (fun _ => ⟨some 9, {"a"}, 4⟩) 0) ∈
        mainTrace (fun _ => ⟨some 9, {"a"}, 4⟩) (fun u => decide (2 ≤ u)) 0 ∧
     Event.writeFrame (framePath 0)
          (frameToObs (((fun _ => (⟨some 9, {"a"}, 4⟩ : TickEnv)) 0).grab.getD 0)) ∈
        mainTrace (fun _ => ⟨some 9, {"a"}, 4⟩) (fun u => decide (2 ≤ u)) 0) :=
  ⟨⟨by decide, by decide⟩,
   stop_checked_once_per_tick (fun _ => ⟨some 9, {"a"}, 4⟩) (fun u => decide (2 ≤ u)) 0 0
     (by decide) (by decide)⟩

/-! ### Claim C2 — behaviour on a failed frame grab -/

theorem mem_blocksFrom (env : Nat → TickEnv) :
    ∀ n t0 e, e ∈ blocksFrom env t0 n →
      ∃ i, t0 ≤ i ∧ i < t0 + n ∧ e ∈ tickBlock env i := by
  intro n
  induction n with
  | zero => intro t0 e h; simp [blocksFrom] at h
  | succ m ih =>
    intro t0 e h
    rw [blocksFrom, List.mem_append] at h
    rcases h with h | h
    · exact ⟨t0, le_rfl, by omega, h⟩
    · obtain ⟨i, h1, h2, h3⟩ := ih (t0 + 1) e h
      exact ⟨i, by omega, by omega, h3⟩

theorem countP_manifest_blocksFrom (env : Nat → TickEnv) :
    ∀ n t0, (blocksFrom env t0 n).countP isManifest = 0 := by
  intro n
  induction n with
  | zero => intro t0; simp [blocksFrom]
  | succ m ih =>
    intro t0
    rw [blocksFrom, List.countP_append, ih (t0 + 1)]
    simp [tickBlock, List.countP_cons, isManifest]

/-- Counterexample to C2 as stated: with the very first grab failing and the
stop flag never set, the whole run trace is just the one stop check and the
failed grab.  No frame or record is persisted for the failed tick (consistent
with the claim), but the loop does **not** continue to the next tick: tick 1
is never checked even though the stop flag is false and the cap is 10000, and
no manifest is ever written — the run aborts. -/
theorem capture_failure_counterexample :
    mainTrace (fun _ => ⟨none, ∅, 0⟩) (fun _ => false) 0 =
      [Event.checkStop 0 false, Event.grabFrame 0 false] ∧
    ((fun _ => false : Nat → Bool) 1 = false ∧ 1 < N_STEPS_MAX) ∧
    (mainTrace (fun _ => ⟨none, ∅, 0⟩) (fun _ => false) 0).countP (isCheckAt 1) = 0 ∧
    (mainTrace (fun _ => ⟨none, ∅, 0⟩) (fun _ => false) 0).countP isManifest = 0 ∧
    stepsOf (mainTrace (fun _ => ⟨none, ∅, 0⟩) (fun _ => false) 0) = [] :=
  ⟨rfl, ⟨rfl, by decide⟩, rfl, rfl, rfl⟩

/-- C2 (amended) -- When the frame grab fails at a reached tick `t`, that
tick persists no frame file and appends no StepRecord; but instead of
continuing to the next tick, the uncaught exception ends the run: the trace
stops right after the failed grab, no tick after `t` is ever checked, every
appended record belongs to a tick before `t`, and no manifest is written. -/
theorem capture_failure_aborts (env : Nat → TickEnv) (stops : Nat → Bool) (start : Nat)
    (t : Nat) (ht : t < N_STEPS_MAX)
    (hbefore : ∀ i, i < t → stops i = false ∧ ((env i).grab).isSome = true)
    (hstop : stops t = false) (hfail : (env t).grab = none) :
    mainTrace env stops start =
      blocksFrom env 0 t ++ [Event.checkStop t false, Event.grabFrame t false] ∧
    (∀ d, Event.writeFrame (framePath t) d ∉ mainTrace env stops start) ∧
    (∀ r, Event.appendStep r ∈ mainTrace env stops start → r.t < t) ∧
    (mainTrace env stops start).countP isManifest = 0 ∧
    (mainTrace env stops start).countP (isCheckAt (t + 1)) = 0 := by
  have hunroll := loopFrom_unroll env stops t 0 N_STEPS_MAX (by omega)
    (fun i h1 h2 => hbefore i (by omega))
  have htail : loopFrom env stops (0 + t) (N_STEPS_MAX - t) =
      [Event.checkStop t false, Event.grabFrame t false] := by
    obtain ⟨f, hf⟩ : ∃ f, N_STEPS_MAX - t = f + 1 := ⟨N_STEPS_MAX - t - 1, by omega⟩
    rw [hf, loopFrom]
    simp [hstop, hfail]
  have hloop : loopFrom env stops 0 N_STEPS_MAX =
      blocksFrom env 0 t ++ [Event.checkStop t false, Event.grabFrame t false] := by
    rw [hunroll, htail]
  have habort : loopAborted (loopFrom env stops 0 N_STEPS_MAX) = true := by
    rw [hloop, loopAborted]
    simp [List.any_append]
  have hmain : mainTrace env stops start =
      blocksFrom env 0 t ++ [Event.checkStop t false, Event.grabFrame t false] := by
    rw [mainTrace]
    simp only [habort, if_true]
    exact hloop
  refine ⟨hmain, ?_, ?_, ?_, ?_⟩
  · intro d hmem
    rw [hmain, List.mem_append] at hmem
    rcases hmem with hmem | hmem
    · obtain ⟨i, hi1, hi2, hi3⟩ := mem_blocksFrom env t 0 _ hmem
      simp [tickBlock] at hi3
      have hfp : framePath i = framePath t := hi3.1.symm
      have : i = t := framePath_inj i t (by
        have : N_STEPS_MAX = 10000 := rfl
        omega) (by
        have : N_STEPS_MAX = 10000 := rfl
        omega) hfp
      omega
    · simp at hmem
  · intro r hmem
    rw [hmain, List.mem_append] at hmem
    rcases hmem with hmem | hmem
    · obtain ⟨i, hi1, hi2, hi3⟩ := mem_blocksFrom env t 0 _ hmem
      simp [tickBlock] at hi3
      rw [hi3]
      show i < t
      omega
    · simp at hmem
  · rw [hmain, List.countP_append, countP_manifest_blocksFrom]
    simp [List.countP_cons, isManifest]
  · rw [hmain, List.countP_append, countP_checkAt_blocksFrom]
    have hno : ¬ (0 ≤ t + 1 ∧ t + 1 < 0 + t) := by omega
    simp [hno, List.countP_cons, isCheckAt]

/-- Witness for the amended C2 at `t = 1`: tick 0 completes, the grab of tick 1
fails. -/
theorem capture_failure_aborts_witness :
    ((1 : Nat) < N_STEPS_MAX ∧
     (∀ i, i < 1 → (fun _ => false : Nat → Bool) i = false ∧
        (((fun i => if i = 0 then (⟨some 3, ∅, 0⟩ : TickEnv) else ⟨none, ∅, 0⟩) i).grab).isSome
          = true) ∧
     (fun _ => false : Nat → Bool) 1 = false ∧
     ((fun i => if i = 0 then (⟨some 3, ∅, 0⟩ : TickEnv) else ⟨none, ∅, 0⟩) 1).grab = none) ∧
    (mainTrace (fun i => if i = 0 then ⟨some 3, ∅, 0⟩ else ⟨none, ∅, 0⟩) (fun _ => false) 0 =
      blocksFrom (fun i => if i = 0 then ⟨some 3, ∅, 0⟩ else ⟨none, ∅, 0⟩) 0 1 ++
        [Event.checkStop 1 false, Event.grabFrame 1 false] ∧
     (∀ d, Event.writeFrame (framePath 1) d ∉
        mainTrace (fun i => if i = 0 then ⟨some 3, ∅, 0⟩ else ⟨none, ∅, 0⟩) (fun _ => false) 0) ∧
     (∀ r, Event.appendStep r ∈
        mainTrace (fun i => if i = 0 then ⟨some 3, ∅, 0⟩ else ⟨none, ∅, 0⟩) (fun _ => false) 0 →
          r.t < 1) ∧
     (mainTrace (fun i => if i = 0 then ⟨some 3, ∅, 0⟩ else ⟨none, ∅, 0⟩)
        (fun _ => false) 0).countP isManifest = 0 ∧
     (mainTrace (fun i => if i = 0 then ⟨some 3, ∅, 0⟩ else ⟨none, ∅, 0⟩)
        (fun _ => false) 0).countP (isCheckAt 2) = 0) :=
  ⟨⟨by decide, by decide, rfl, by decide⟩,
   capture_failure_aborts (fun i => if i = 0 then ⟨some 3, ∅, 0⟩ else ⟨none, ∅, 0⟩)
     (fun _ => false) 0 1 (by decide) (by decide) rfl (by decide)⟩

/-! ### Claim C10 — internal consistency of each appended record -/

/-- A tick reached with the flag clear and a good grab contributes its record
to the steps of the run. -/
theorem mkRecord_mem_steps (env : Nat → TickEnv) (stops : Nat → Bool) (start : Nat)
    (t : Nat) (ht : t < N_STEPS_MAX)
    (hok : ∀ i, i ≤ t → stops i = false ∧ ((env i).grab).isSome = true) :
    mkRecord env t ∈ stepsOf (mainTrace env stops start) := by
  rw [stepsOf_mainTrace,
    loopFrom_unroll env stops (t + 1) 0 N_STEPS_MAX (by omega)
      (fun i h1 h2 => hok i (by omega)),
    stepsOf_append, stepsOf_blocksFrom]
  apply List.mem_append_left
  exact List.mem_map_of_mem (mkRecord env) (List.mem_range'.mpr ⟨t, by omega, by omega⟩)

/-- C10 -- Every appended StepRecord derives its `action` and its `held_keys`
from one single snapshot: there is a snapshot set whose sorted elements are
exactly `held_keys` and whose encoding is exactly `action`, and consequently
`action[i] = 1` iff `held_keys` meets the aliases of the i-th keymap entry. -/
theorem record_internally_consistent (env : Nat → TickEnv) (stops : Nat → Bool)
    (start : Nat) (r : StepRecord)
    (hr : r ∈ stepsOf (mainTrace env stops start)) :
    ∃ snap : Finset String,
      r.held_keys = snap.sort (· ≤ ·) ∧
      r.action = encode snap KEYMAP ∧
      r.action.length = KEYMAP.length ∧
      ∀ i (hK : i < KEYMAP.length) (hA : i < r.action.length),
        (r.action.get ⟨i, hA⟩ = 1 ↔ ∃ a ∈ (KEYMAP.get ⟨i, hK⟩).2, a ∈ r.held_keys) := by
  rw [stepsOf_mainTrace] at hr
  obtain ⟨t, raw, _, _, rfl, _⟩ := mem_stepsOf_loopFrom env stops N_STEPS_MAX 0 r hr
  refine ⟨(env t).heldSnap, rfl, rfl, encode_length _ _, ?_⟩
  intro i hK hA
  have hA2 : i < (encode (env t).heldSnap KEYMAP).length := hA
  show (encode (env t).heldSnap KEYMAP).get ⟨i, hA2⟩ = 1 ↔
    ∃ a ∈ (KEYMAP.get ⟨i, hK⟩).2, a ∈ (env t).heldSnap.sort (· ≤ ·)
  rw [encode_get _ _ i hK hA2]
  by_cases h : ∃ a ∈ (KEYMAP.get ⟨i, hK⟩).2, a ∈ (env t).heldSnap <;>
    simp [h, Finset.mem_sort]

/-- Witness for C10 on a one-record run. -/
theorem record_internally_consistent_witness :
    (mkRecord (fun _ => ⟨some 7, {"w"}, 5⟩) 0 ∈
      stepsOf (mainTrace (fun _ => ⟨some 7, {"w"}, 5⟩) (fun u => decide (1 ≤ u)) 0)) ∧
    (∃ snap : Finset String,
      (mkRecord (fun _ => ⟨some 7, {"w"}, 5⟩) 0).held_keys = snap.sort (· ≤ ·) ∧
      (mkRecord (fun _ => ⟨some 7, {"w"}, 5⟩) 0).action = encode snap KEYMAP ∧
      (mkRecord (fun _ => ⟨some 7, {"w"}, 5⟩) 0).action.length = KEYMAP.length ∧
      ∀ i (hK : i < KEYMAP.length)
        (hA : i < (mkRecord (fun _ => ⟨some 7, {"w"}, 5⟩) 0).action.length),
        ((mkRecord (fun _ => ⟨some 7, {"w"}, 5⟩) 0).action.get ⟨i, hA⟩ = 1 ↔
          ∃ a ∈ (KEYMAP.get ⟨i, hK⟩).2,
            a ∈ (mkRecord (fun _ => ⟨some 7, {"w"}, 5⟩) 0).held_keys)) :=
  ⟨mkRecord_mem_steps (fun _ => ⟨some 7, {"w"}, 5⟩) (fun u => decide (1 ≤ u)) 0 0
     (by decide) (by decide),
   record_internally_consistent (fun _ => ⟨some 7, {"w"}, 5⟩) (fun u => decide (1 ≤ u)) 0
     (mkRecord (fun _ => ⟨some 7, {"w"}, 5⟩) 0)
     (mkRecord_mem_steps (fun _ => ⟨some 7, {"w"}, 5⟩) (fun u => decide (1 ≤ u)) 0 0
       (by decide) (by decide))⟩

/-! ### Claim C9 — the "esc" name never reaches the held set -/

theorem key_to_name_esc_only (k : PKey) (h : key_to_name k = some "esc") :
    k = PKey.esc := by
  cases k with
  | keyCode ch =>
    cases ch with
    | none => simp [key_to_name] at h
    | some c =>
      exfalso
      simp only [key_to_name, Option.some.injEq] at h
      have h3 := congrArg String.data h
      rw [show ("esc").data = ['e', 's', 'c'] from rfl] at h3
      simp [String.singleton] at h3
  | esc => rfl
  | up => exact absurd h (by decide)
  | down => exact absurd h (by decide)
  | left => exact absurd h (by decide)
  | right => exact absurd h (by decide)
  | enter => exact absurd h (by decide)
  | tab => exact absurd h (by decide)
  | shift => exact absurd h (by decide)
  | shift_r => exact absurd h (by decide)
  | other n => simp [key_to_name] at h

theorem esc_not_held_on_press (s : ListenerState) (k : PKey)
    (h : "esc" ∉ s.held) : "esc" ∉ (on_press s k).held := by
  rw [on_press.eq_def]
  cases hk : key_to_name k with
  | none => exact h
  | some name =>
    by_cases hname : name = "esc"
    · simp only [hname, if_true]
      exact h
    · simp only [hname, if_false]
      intro hmem
      rcases Finset.mem_insert.mp hmem with h1 | h1
      · exact hname h1.symm
      · exact h h1

theorem esc_not_held_on_release (s : ListenerState) (k : PKey)
    (h : "esc" ∉ s.held) : "esc" ∉ (on_release s k).held := by
  rw [on_release.eq_def]
  cases hk : key_to_name k with
  | none => exact h
  | some name =>
    intro hmem
    exact h (Finset.mem_of_mem_erase hmem)

theorem esc_not_held_applyEvent (s : ListenerState) (e : KeyEvent)
    (h : "esc" ∉ s.held) : "esc" ∉ (applyEvent s e).held := by
  cases e with
  | press k =>
    show "esc" ∉ (if s.listening then on_press s k else s).held
    by_cases hl : s.listening
    · rw [if_pos hl]
      exact esc_not_held_on_press s k h
    · rw [if_neg hl]
      exact h
  | release k =>
    show "esc" ∉ (if s.listening then on_release s k else s).held
    by_cases hl : s.listening
    · rw [if_pos hl]
      exact esc_not_held_on_release s k h
    · rw [if_neg hl]
      exact h

theorem esc_never_held_foldl :
    ∀ (evs : List KeyEvent) (s : ListenerState), "esc" ∉ s.held →
      "esc" ∉ (evs.foldl applyEvent s).held := by
  intro evs
  induction evs with
  | nil => intro s h; exact h
  | cons e rest ih =>
    intro s h
    exact ih _ (esc_not_held_applyEvent s e h)

/-- C9 -- The canonical name `"esc"` is never in the held set (the press
handler returns before the insert, and the erase of an absent
name by the release handler is a no-op), hence never in the `held_keys` of any record; and the `"menu"`
channel — index 6, aliases `{"esc", "tab"}` — has action bit 1 in a record
exactly when `"tab"` is held.  Snapshots are assumed to be listener-reachable
held sets, which is how the sampler obtains them. -/
theorem esc_never_in_records (evs : List KeyEvent)
    (env : Nat → TickEnv) (stops : Nat → Bool) (start : Nat)
    (hreach : ∀ t, ∃ evs2, (env t).heldSnap = (listenerRun evs2).held) :
    "esc" ∉ (listenerRun evs).held ∧
    ∀ r ∈ stepsOf (mainTrace env stops start),
      "esc" ∉ r.held_keys ∧
      ∀ hA : 6 < r.action.length,
        (r.action.get ⟨6, hA⟩ = 1 ↔ "tab" ∈ r.held_keys) := by
  constructor
  · exact esc_never_held_foldl evs initialListener (by simp [initialListener])
  · intro r hr
    rw [stepsOf_mainTrace] at hr
    obtain ⟨t, raw, _, _, rfl, _⟩ := mem_stepsOf_loopFrom env stops N_STEPS_MAX 0 r hr
    obtain ⟨evs2, hsnap⟩ := hreach t
    have hesc : "esc" ∉ (env t).heldSnap := by
      rw [hsnap]
      exact esc_never_held_foldl evs2 initialListener (by simp [initialListener])
    constructor
    · show "esc" ∉ (env t).heldSnap.sort (· ≤ ·)
      rw [Finset.mem_sort]
      exact hesc
    · intro hA
      have hK : (6 : Nat) < KEYMAP.length := by decide
      have hA2 : (6 : Nat) < (encode (env t).heldSnap KEYMAP).length := hA
      have hcond : (∃ a ∈ (KEYMAP.get ⟨6, hK⟩).2, a ∈ (env t).heldSnap) ↔
          "tab" ∈ (env t).heldSnap := by
        constructor
        · rintro ⟨a, ha, hmem⟩
          have ha2 : a ∈ ({"esc", "tab"} : Finset String) := ha
          rcases Finset.mem_insert.mp ha2 with h1 | h1
          · subst h1
            exact absurd hmem hesc
          · rw [Finset.mem_singleton] at h1
            subst h1
            exact hmem
        · intro h1
          refine ⟨"tab", ?_, h1⟩
          have hmenu : KEYMAP.get ⟨6, hK⟩ = ("menu", ({"esc", "tab"} : Finset String)) := rfl
          rw [hmenu]
          decide
      show (encode (env t).heldSnap KEYMAP).get ⟨6, hA2⟩ = 1 ↔
        "tab" ∈ (env t).heldSnap.sort (· ≤ ·)
      rw [encode_get _ _ 6 hK hA2, Finset.mem_sort]
      by_cases h1 : "tab" ∈ (env t).heldSnap
      · rw [if_pos (hcond.mpr h1)]
        simp [h1]
      · rw [if_neg (fun hx => h1 (hcond.mp hx))]
        simp [h1]

/-- Witness for C9 with one `tab` press and a matching one-tick run whose
snapshot is the state the listener reached. -/
theorem esc_never_in_records_witness :
    (∀ t : Nat, ∃ evs2,
      ((fun _ => (⟨some 1, (listenerRun [KeyEvent.press PKey.tab]).held, 0⟩ : TickEnv))
        t).heldSnap = (listenerRun evs2).held) ∧
    ("esc" ∉ (listenerRun [KeyEvent.press PKey.tab]).held ∧
     ∀ r ∈ stepsOf (mainTrace
        (fun _ => ⟨some 1, (listenerRun [KeyEvent.press PKey.tab]).held, 0⟩)
        (fun u => decide (1 ≤ u)) 0),
       "esc" ∉ r.held_keys ∧
       ∀ hA : 6 < r.action.length,
         (r.action.get ⟨6, hA⟩ = 1 ↔ "tab" ∈ r.held_keys)) :=
  ⟨fun t => ⟨[KeyEvent.press PKey.tab], rfl⟩,
   esc_never_in_records [KeyEvent.press PKey.tab]
     (fun _ => ⟨some 1, (listenerRun [KeyEvent.press PKey.tab]).held, 0⟩)
     (fun u => decide (1 ≤ u)) 0 (fun t => ⟨[KeyEvent.press PKey.tab], rfl⟩)⟩

/-! ### Claim C8 — zero-padded sequential filenames and order preservation -/

/-- C8 -- Frames are written under the zero-padded name `pad5 t ++ ".jpg"`;
for ticks `s < t` under the step cap the filename (and full frame path) of
`s` is lexicographically smaller than that of `t`, their numeric readings are
`s` and `t` themselves (so numeric order agrees), and every appended record
stores exactly the path used by the frame write of its tick. -/
theorem frame_filenames_ordered (env : Nat → TickEnv) (stops : Nat → Bool) (start : Nat)
    (s t : Nat) (hst : s < t) (ht : t < N_STEPS_MAX) :
    frameName s < frameName t ∧
    framePath s < framePath t ∧
    digitsVal (pad5 s).data = s ∧
    digitsVal (pad5 t).data = t ∧
    (∀ r ∈ stepsOf (mainTrace env stops start),
      r.frame = framePath r.t ∧
      ∃ d, Event.writeFrame r.frame d ∈ mainTrace env stops start) := by
  have hN : N_STEPS_MAX = 10000 := rfl
  have ht5 : t < 100000 := by omega
  refine ⟨frameName_lt s t hst ht5, framePath_lt s t hst ht5,
    digitsVal_pad5 s (by omega), digitsVal_pad5 t ht5, ?_⟩
  intro r hr
  rw [stepsOf_mainTrace] at hr
  obtain ⟨u, raw, _, _, rfl, hw⟩ := mem_stepsOf_loopFrom env stops N_STEPS_MAX 0 r hr
  exact ⟨rfl, frameToObs raw, mem_loopFrom_mainTrace env stops start _ hw⟩

/-- Witness for C8 at `s = 0`, `t = 1`. -/
theorem frame_filenames_ordered_witness :
    ((0 : Nat) < 1 ∧ (1 : Nat) < N_STEPS_MAX) ∧
    (frameName 0 < frameName 1 ∧
     framePath 0 < framePath 1 ∧
     digitsVal (pad5 0).data = 0 ∧
     digitsVal (pad5 1).data = 1 ∧
     (∀ r ∈ stepsOf (mainTrace (fun _ => ⟨some 7, {"w"}, 5⟩) (fun u => decide (1 ≤ u)) 0),
       r.frame = framePath r.t ∧
       ∃ d, Event.writeFrame r.frame d ∈
          mainTrace (fun _ => ⟨some 7, {"w"}, 5⟩) (fun u => decide (1 ≤ u)) 0)) :=
  ⟨⟨by decide, by decide⟩,
   frame_filenames_ordered (fun _ => ⟨some 7, {"w"}, 5⟩) (fun u => decide (1 ≤ u)) 0 0 1
     (by decide) (by decide)⟩

/-! ### Bracket-balance lemmas for the manifest serialization -/

theorem netOf_nil : netOf [] = 0 := rfl

theorem netOf_cons (c : Char) (cs : List Char) : netOf (c :: cs) = delta c + netOf cs := by
  simp [netOf]

theorem netOf_append (a b : List Char) : netOf (a ++ b) = netOf a + netOf b := by
  simp [netOf]

theorem okFrom_append : ∀ (a : List Char) (d : Int) (b : List Char),
    okFrom d (a ++ b) = (okFrom d a && okFrom (d + netOf a) b) := by
  intro a
  induction a with
  | nil => intro d b; simp [okFrom, netOf]
  | cons c cs ih =>
    intro d b
    rw [List.cons_append, okFrom, okFrom, ih (d + delta c) b]
    have : d + netOf (c :: cs) = d + delta c + netOf cs := by
      rw [netOf_cons]; ring
    rw [this, Bool.and_assoc]

theorem okFrom_mono : ∀ (l : List Char) (d d2 : Int), d ≤ d2 →
    okFrom d l = true → okFrom d2 l = true := by
  intro l
  induction l with
  | nil => intro d d2 _ _; rfl
  | cons c cs ih =>
    intro d d2 hle h
    rw [okFrom, Bool.and_eq_true] at h ⊢
    refine ⟨?_, ih (d + delta c) (d2 + delta c) (by omega) h.2⟩
    have := of_decide_eq_true h.1
    exact decide_eq_true (by omega)

theorem okFrom_of_flat : ∀ (l : List Char) (d : Int), 0 ≤ d →
    (∀ c ∈ l, delta c = 0) → okFrom d l = true := by
  intro l
  induction l with
  | nil => intro d _ _; rfl
  | cons c cs ih =>
    intro d hd h
    rw [okFrom, Bool.and_eq_true]
    have hc : delta c = 0 := h c (by simp)
    refine ⟨decide_eq_true (by omega), ?_⟩
    exact ih (d + delta c) (by omega) (fun x hx => h x (by simp [hx]))

theorem goodBody_nil : goodBody [] := ⟨rfl, rfl⟩

theorem goodBody_of_flat (l : List Char) (h : ∀ c ∈ l, delta c = 0) : goodBody l := by
  refine ⟨okFrom_of_flat l 0 le_rfl h, ?_⟩
  rw [netOf]
  apply List.sum_eq_zero
  intro x hx
  rw [List.mem_map] at hx
  obtain ⟨c, hc, rfl⟩ := hx
  exact h c hc

theorem goodBody_append (a b : List Char) (ha : goodBody a) (hb : goodBody b) :
    goodBody (a ++ b) := by
  constructor
  · rw [okFrom_append, ha.2]
    simp [ha.1, hb.1]
  · rw [netOf_append, ha.2, hb.2]
    norm_num

theorem okFrom_singleton (d : Int) (c : Char) :
    okFrom d [c] = decide (0 ≤ d + delta c) := by
  show (decide (0 ≤ d + delta c) && okFrom (d + delta c) []) = decide (0 ≤ d + delta c)
  show (decide (0 ≤ d + delta c) && true) = decide (0 ≤ d + delta c)
  exact Bool.and_true _

theorem okFrom_cons (d : Int) (c : Char) (cs : List Char) :
    okFrom d (c :: cs) = (decide (0 ≤ d + delta c) && okFrom (d + delta c) cs) := rfl

theorem goodBody_wrap (o c : Char) (ho : delta o = 1) (hc : delta c = -1)
    (b : List Char) (hb : goodBody b) : goodBody (o :: (b ++ [c])) := by
  constructor
  · rw [okFrom_cons, Bool.and_eq_true]
    refine ⟨decide_eq_true (by omega), ?_⟩
    rw [okFrom_append, Bool.and_eq_true]
    refine ⟨okFrom_mono b 0 (0 + delta o) (by omega) hb.1, ?_⟩
    rw [okFrom_singleton]
    exact decide_eq_true (by rw [hb.2, ho, hc]; norm_num)
  · rw [netOf_cons, netOf_append, netOf_cons, netOf_nil, hb.2, ho, hc]
    norm_num

theorem okFrom_prefix_nonneg : ∀ (l : List Char) (d : Int) (p : List Char), 0 ≤ d →
    okFrom d l = true → p <+: l → 0 ≤ d + netOf p := by
  intro l
  induction l with
  | nil =>
    intro d p hd _ hp
    rw [List.prefix_nil] at hp
    subst hp
    simpa [netOf]
  | cons c cs ih =>
    intro d p hd h hp
    cases p with
    | nil => simpa [netOf]
    | cons q qs =>
      have hq : q = c ∧ qs <+: cs := by
        rcases hp with ⟨rest, hrest⟩
        injection hrest with h1 h2
        exact ⟨h1, ⟨rest, h2⟩⟩
      obtain ⟨rfl, hqs⟩ := hq
      rw [okFrom_cons, Bool.and_eq_true] at h
      have h1 := of_decide_eq_true h.1
      have h2 := ih (d + delta q) qs (by omega) h.2 hqs
      rw [netOf_cons]
      omega

/-- Every proper non-empty prefix of a wrapped balanced body has positive net
bracket depth: the outer opening bracket is closed only at the very last
character. -/
theorem wrap_prefix_pos (o c : Char) (ho : delta o = 1) (hc : delta c = -1)
    (b : List Char) (hb : goodBody b) :
    ∀ p, p <+: (o :: (b ++ [c])) → p ≠ (o :: (b ++ [c])) → p ≠ [] → 1 ≤ netOf p := by
  intro p hp hne hnil
  cases p with
  | nil => exact absurd rfl hnil
  | cons q qs =>
    have hq : q = o ∧ qs <+: b ++ [c] := by
      rcases hp with ⟨rest, hrest⟩
      injection hrest with h1 h2
      exact ⟨h1, ⟨rest, h2⟩⟩
    obtain ⟨rfl, hqs⟩ := hq
    have hqs_b : qs <+: b := by
      have hlen : qs.length ≤ b.length := by
        have h1 := hqs.length_le
        rw [List.length_append] at h1
        by_cases heq : qs.length = b.length + 1
        · exfalso
          have : qs = b ++ [c] := hqs.eq_of_length (by simpa using heq)
          exact hne (by rw [this])
        · simp at h1
          omega
      exact List.prefix_of_prefix_length_le hqs (List.prefix_append b [c]) hlen
    have hnn := okFrom_prefix_nonneg b 0 qs le_rfl hb.1 hqs_b
    rw [netOf_cons, ho]
    omega

/-! ### Goodness of the serializer pieces -/

theorem natDigits_digits : ∀ n c, c ∈ natDigits n → ∃ d, d < 10 ∧ c = Nat.digitChar d := by
  intro n
  induction n using Nat.strong_induction_on with
  | _ n ih =>
    intro c hc
    rw [natDigits] at hc
    by_cases h : n < 10
    · rw [dif_pos h] at hc
      simp at hc
      exact ⟨n, h, hc⟩
    · rw [dif_neg h, List.mem_append] at hc
      rcases hc with hc | hc
      · exact ih (n / 10) (Nat.div_lt_self (by omega) (by omega)) c hc
      · simp at hc
        exact ⟨n % 10, Nat.mod_lt n (by omega), hc⟩

theorem jsafe_digitChar : ∀ d, d < 10 → jsafe (Nat.digitChar d) := by decide

theorem goodBody_jstr (s : String) (h : cleanS s) : goodBody (jstr s) := by
  apply goodBody_of_flat
  intro c hc
  rw [jstr] at hc
  rcases List.mem_cons.mp hc with rfl | hc2
  · decide
  · rcases List.mem_append.mp hc2 with hc3 | hc3
    · exact (h c hc3).1
    · rcases List.mem_singleton.mp hc3 with rfl
      decide

theorem goodBody_jnum (n : Nat) : goodBody (jnum n) := by
  apply goodBody_of_flat
  intro c hc
  have hdig : c ∈ natDigits n := by
    rw [jnum] at hc
    have hdata : (Nat.repr n).data = natDigits n := toString_nat_data n
    rwa [hdata] at hc
  obtain ⟨d, hd, rfl⟩ := natDigits_digits n c hdig
  exact (jsafe_digitChar d hd).1

theorem goodBody_sepList : ∀ xs, (∀ x ∈ xs, goodBody x) → goodBody (sepList xs) := by
  intro xs
  induction xs with
  | nil => intro _; exact goodBody_nil
  | cons x rest ih =>
    intro h
    cases rest with
    | nil => exact h x (by simp)
    | cons y rest2 =>
      rw [sepList]
      exact goodBody_append _ _
        (goodBody_append _ _ (h x (by simp)) (goodBody_of_flat _ (by decide)))
        (ih (fun z hz => h z (by simp [hz])))

theorem goodBody_jarr (xs : List (List Char)) (h : ∀ x ∈ xs, goodBody x) :
    goodBody (jarr xs) :=
  goodBody_wrap '[' ']' (by decide) (by decide) _ (goodBody_sepList xs h)

theorem goodBody_jfield (k : String) (v : List Char) (hk : cleanS k) (hv : goodBody v) :
    goodBody (jfield k v) :=
  goodBody_append _ _
    (goodBody_append _ _ (goodBody_jstr k hk) (goodBody_of_flat _ (by decide))) hv

theorem goodBody_jobj_body (kvs : List (String × List Char))
    (h : ∀ kv ∈ kvs, cleanS kv.1 ∧ goodBody kv.2) :
    goodBody (sepList (kvs.map fun kv => jfield kv.1 kv.2)) := by
  apply goodBody_sepList
  intro x hx
  rw [List.mem_map] at hx
  obtain ⟨kv, hkv, rfl⟩ := hx
  exact goodBody_jfield kv.1 kv.2 (h kv hkv).1 (h kv hkv).2

theorem goodBody_jobj (kvs : List (String × List Char))
    (h : ∀ kv ∈ kvs, cleanS kv.1 ∧ goodBody kv.2) : goodBody (jobj kvs) :=
  goodBody_wrap '{' '}' (by decide) (by decide) _ (goodBody_jobj_body kvs h)

theorem jobj_proper_prefix_pos (kvs : List (String × List Char))
    (h : ∀ kv ∈ kvs, cleanS kv.1 ∧ goodBody kv.2) :
    ∀ p, p <+: jobj kvs → p ≠ jobj kvs → p ≠ [] → 1 ≤ netOf p := by
  rw [jobj]
  exact wrap_prefix_pos '{' '}' (by decide) (by decide) _ (goodBody_jobj_body kvs h)

theorem goodBody_serStep (r : StepRecord) (hk : ∀ x ∈ r.held_keys, cleanS x)
    (hf : cleanS r.frame) : goodBody (serStep r) := by
  apply goodBody_jobj
  intro kv hkv
  simp only [serStep, List.mem_cons, List.not_mem_nil, or_false] at hkv
  rcases hkv with rfl | rfl | rfl | rfl | rfl
  · exact ⟨show cleanS "t" from by decide, goodBody_jnum _⟩
  · exact ⟨show cleanS "time_unix" from by decide, goodBody_jnum _⟩
  · refine ⟨show cleanS "held_keys" from by decide, goodBody_jarr _ ?_⟩
    intro x hx
    rw [List.mem_map] at hx
    obtain ⟨s, hs, rfl⟩ := hx
    exact goodBody_jstr s (hk s hs)
  · refine ⟨show cleanS "action" from by decide, goodBody_jarr _ ?_⟩
    intro x hx
    rw [List.mem_map] at hx
    obtain ⟨n, _, rfl⟩ := hx
    exact goodBody_jnum n
  · exact ⟨show cleanS "frame" from by decide, goodBody_jstr _ hf⟩

theorem goodBody_serKeymapEntry (e : String × List String)
    (hn : cleanS e.1) (ha : ∀ a ∈ e.2, cleanS a) : goodBody (serKeymapEntry e) := by
  apply goodBody_jobj
  intro kv hkv
  simp only [serKeymapEntry, List.mem_cons, List.not_mem_nil, or_false] at hkv
  rcases hkv with rfl | rfl
  · exact ⟨show cleanS "name" from by decide, goodBody_jstr _ hn⟩
  · refine ⟨show cleanS "aliases" from by decide, goodBody_jarr _ ?_⟩
    intro x hx
    rw [List.mem_map] at hx
    obtain ⟨s, hs, rfl⟩ := hx
    exact goodBody_jstr s (ha s hs)

theorem goodBody_serRegion (rg : Region) : goodBody (serRegion rg) := by
  apply goodBody_jobj
  intro kv hkv
  simp only [serRegion, List.mem_cons, List.not_mem_nil, or_false] at hkv
  rcases hkv with rfl | rfl | rfl | rfl
  · exact ⟨show cleanS "left" from by decide, goodBody_jnum _⟩
  · exact ⟨show cleanS "top" from by decide, goodBody_jnum _⟩
  · exact ⟨show cleanS "width" from by decide, goodBody_jnum _⟩
  · exact ⟨show cleanS "height" from by decide, goodBody_jnum _⟩

/-- Every proper non-empty prefix of the serialized manifest has positive net
bracket depth, and the full document is balanced. -/
theorem serMeta_prefix_pos (m : RolloutMetadata) (hm : cleanMeta m) :
    netOf (serMeta m) = 0 ∧
    ∀ p, p <+: serMeta m → p ≠ serMeta m → p ≠ [] → 1 ≤ netOf p := by
  have hfields : ∀ kv ∈
      [(("region" : String), serRegion m.region),
       ("out_size", jarr (m.out_size.map jnum)),
       ("hz", jnum m.hz),
       ("keymap", jarr (m.keymap.map serKeymapEntry)),
       ("start_time_unix", jnum m.start_time_unix),
       ("steps", jarr (m.steps.map serStep))],
      cleanS kv.1 ∧ goodBody kv.2 := by
    intro kv hkv
    simp only [List.mem_cons, List.not_mem_nil, or_false] at hkv
    rcases hkv with rfl | rfl | rfl | rfl | rfl | rfl
    · exact ⟨show cleanS "region" from by decide, goodBody_serRegion m.region⟩
    · refine ⟨show cleanS "out_size" from by decide, goodBody_jarr _ ?_⟩
      intro x hx
      rw [List.mem_map] at hx
      obtain ⟨n, _, rfl⟩ := hx
      exact goodBody_jnum n
    · exact ⟨show cleanS "hz" from by decide, goodBody_jnum _⟩
    · refine ⟨show cleanS "keymap" from by decide, goodBody_jarr _ ?_⟩
      intro x hx
      rw [List.mem_map] at hx
      obtain ⟨e, he, rfl⟩ := hx
      exact goodBody_serKeymapEntry e (hm.1 e he).1 (hm.1 e he).2
    · exact ⟨show cleanS "start_time_unix" from by decide, goodBody_jnum _⟩
    · refine ⟨show cleanS "steps" from by decide, goodBody_jarr _ ?_⟩
      intro x hx
      rw [List.mem_map] at hx
      obtain ⟨r, hr, rfl⟩ := hx
      exact goodBody_serStep r (hm.2 r hr).1 (hm.2 r hr).2
  constructor
  · exact (goodBody_jobj _ hfields).2
  · exact jobj_proper_prefix_pos _ hfields

/-! ### Cleanliness of the strings the recorder itself produces -/

theorem jsafe_pad5 (t : Nat) : ∀ c ∈ (pad5 t).data, jsafe c := by
  intro c hcm
  rw [pad5_data, List.mem_append] at hcm
  rcases hcm with hcm | hcm
  · have : c = '0' := List.eq_of_mem_replicate hcm
    subst this
    decide
  · obtain ⟨d, hd, rfl⟩ := natDigits_digits t c hcm
    exact jsafe_digitChar d hd

theorem cleanS_framePath (t : Nat) : cleanS (framePath t) := by
  intro c hcm
  have hdata : (framePath t).data = ("frames/").data ++ ((pad5 t).data ++ (".jpg").data) := by
    show ("frames/" ++ (pad5 t ++ ".jpg")).data = _
    rw [String.data_append, String.data_append]
  rw [hdata, List.mem_append, List.mem_append] at hcm
  rcases hcm with hcm | hcm | hcm
  · revert c
    decide
  · exact jsafe_pad5 t c hcm
  · revert c
    decide

theorem keymap_clean : ∀ p ∈ KEYMAP, cleanS p.1 ∧ ∀ a ∈ p.2, cleanS a := by decide

/-- The manifest assembled at the end of a run satisfies `cleanMeta` whenever
every held-key name that ever entered a snapshot is clean. -/
theorem cleanMeta_final (env : Nat → TickEnv) (stops : Nat → Bool) (start : Nat)
    (hclean : ∀ i, ∀ x ∈ (env i).heldSnap, cleanS x) :
    cleanMeta { initMeta start with
      steps := stepsOf (loopFrom env stops 0 N_STEPS_MAX) } := by
  constructor
  · intro e he
    have he2 : e ∈ KEYMAP.map (fun p => (p.1, p.2.sort (· ≤ ·))) := he
    rw [List.mem_map] at he2
    obtain ⟨p, hp, rfl⟩ := he2
    refine ⟨(keymap_clean p hp).1, ?_⟩
    intro a ha
    rw [Finset.mem_sort] at ha
    exact (keymap_clean p hp).2 a ha
  · intro r hr
    obtain ⟨t, raw, _, _, rfl, _⟩ := mem_stepsOf_loopFrom env stops N_STEPS_MAX 0 r hr
    constructor
    · intro x hx
      have hx2 : x ∈ (env t).heldSnap := by
        have : x ∈ (env t).heldSnap.sort (· ≤ ·) := hx
        rwa [Finset.mem_sort] at this
      exact hclean t x hx2
    · exact cleanS_framePath t

theorem countP_manifest_loopFrom (env : Nat → TickEnv) (stops : Nat → Bool)
    (fuel t0 : Nat) : (loopFrom env stops t0 fuel).countP isManifest = 0 := by
  rw [List.countP_eq_zero]
  intro e he
  cases e with
  | writeManifest m2 => exact absurd he (manifest_not_in_loopFrom env stops fuel t0 m2)
  | checkStop t b => simp [isManifest]
  | grabFrame t b => simp [isManifest]
  | writeFrame p d => simp [isManifest]
  | appendStep r => simp [isManifest]

/-! ### Claim C3 — the manifest write -/

/-- C3 -- On a run with no grab failure (normal or stop-key termination, the
scope of `finalize` per the spec), exactly one manifest write happens, it is
the last event of the run — strictly after every step append — and the
manifest it writes holds every accumulated StepRecord.  For atomicity in the
sense of the claim: the serialized manifest document is bracket-balanced, while
every proper non-empty prefix of it has positive net bracket depth (an
unclosed `{` or `[`), so no intermediate state of the file is a document that
a JSON parser could successfully parse and silently truncate. -/
theorem manifest_written_once_atomic (env : Nat → TickEnv) (stops : Nat → Bool)
    (start : Nat)
    (hok : ∀ i, ((env i).grab).isSome = true)
    (hclean : ∀ i, ∀ x ∈ (env i).heldSnap, cleanS x) :
    ∃ m : RolloutMetadata,
      mainTrace env stops start =
        loopFrom env stops 0 N_STEPS_MAX ++ [Event.writeManifest m] ∧
      (loopFrom env stops 0 N_STEPS_MAX).countP isManifest = 0 ∧
      (mainTrace env stops start).countP isManifest = 1 ∧
      m.steps = stepsOf (mainTrace env stops start) ∧
      netOf (serMeta m) = 0 ∧
      (∀ p, p <+: serMeta m → p ≠ serMeta m → p ≠ [] → ¬ netOf p = 0) := by
  have habort := loopAborted_of_allOk env stops hok N_STEPS_MAX 0
  refine ⟨{ initMeta start with steps := stepsOf (loopFrom env stops 0 N_STEPS_MAX) },
    ?_, countP_manifest_loopFrom env stops N_STEPS_MAX 0, ?_, ?_, ?_, ?_⟩
  · rw [mainTrace]
    simp [habort]
  · rw [mainTrace]
    simp only [habort, Bool.false_eq_true, if_false, List.countP_append]
    rw [countP_manifest_loopFrom env stops N_STEPS_MAX 0]
    rfl
  · rw [stepsOf_mainTrace]
  · exact (serMeta_prefix_pos _ (cleanMeta_final env stops start hclean)).1
  · intro p hp hne hnil hzero
    have := (serMeta_prefix_pos _ (cleanMeta_final env stops start hclean)).2 p hp hne hnil
    omega

/-- Witness for C3 on a two-tick run (stop first observed at tick 2) with a
clean held-key snapshot. -/
theorem manifest_written_once_atomic_witness :
    ((∀ i : Nat, (((fun _ => (⟨some 5, {"w"}, 2⟩ : TickEnv)) i).grab).isSome = true) ∧
     (∀ i : Nat, ∀ x ∈ ((fun _ => (⟨some 5, {"w"}, 2⟩ : TickEnv)) i).heldSnap, cleanS x)) ∧
    (∃ m : RolloutMetadata,
      mainTrace (fun _ => ⟨some 5, {"w"}, 2⟩) (fun u => decide (2 ≤ u)) 0 =
        loopFrom (fun _ => ⟨some 5, {"w"}, 2⟩) (fun u => decide (2 ≤ u)) 0 N_STEPS_MAX ++
          [Event.writeManifest m] ∧
      (loopFrom (fun _ => ⟨some 5, {"w"}, 2⟩) (fun u => decide (2 ≤ u)) 0
        N_STEPS_MAX).countP isManifest = 0 ∧
      (mainTrace (fun _ => ⟨some 5, {"w"}, 2⟩) (fun u => decide (2 ≤ u)) 0).countP
        isManifest = 1 ∧
      m.steps = stepsOf (mainTrace (fun _ => ⟨some 5, {"w"}, 2⟩) (fun u => decide (2 ≤ u)) 0) ∧
      netOf (serMeta m) = 0 ∧
      (∀ p, p <+: serMeta m → p ≠ serMeta m → p ≠ [] → ¬ netOf p = 0)) :=
  ⟨⟨fun i => rfl,
    fun i => (by decide : ∀ x ∈ ({"w"} : Finset String), cleanS x)⟩,
   manifest_written_once_atomic (fun _ => ⟨some 5, {"w"}, 2⟩) (fun u => decide (2 ≤ u)) 0
     (fun i => rfl)
     (fun i => (by decide : ∀ x ∈ ({"w"} : Finset String), cleanS x))⟩
